import Mathlib

set_option maxRecDepth 2000

/-!
# Verification of the AEAD secret codec (`src/lib` encryption utilities)

Shallow embedding of the repository's encryption module: `getEncryptionKey`,
`encrypt`, `decrypt`, `safeDecrypt`, together with the `envConfig.ts` Zod
validation of `ENCRYPTION_KEY`.

Modelling conventions:
* A JavaScript string is a list of UTF-16 code units, embedded as `List Nat`
  (each unit `< 65536` for real JS strings; theorems carry that bound as a
  hypothesis where it matters).
* Byte arrays (`Uint8Array`, `ArrayBuffer`) are `List Nat` with entries `< 256`.
* The random 12-byte nonce drawn by `crypto.getRandomValues` is an explicit
  parameter of `encrypt`.
* Thrown JavaScript errors become `Except` errors carrying the message (the
  spec's taxonomy collapses every decrypt-path failure into one
  `DecryptionError` kind; in the model every decrypt-path failure is the
  single error value produced by the AES-GCM primitive model).
* The external platform primitives (WebCrypto AES-256-GCM, `TextEncoder`,
  `TextDecoder`, base64 codecs) are not part of the repository; they are
  modelled from the spec, see the doc comments of `keystream`, `gcmTag`,
  `subtleEncrypt`, `subtleDecrypt`, `utf8Encode`, `utf8Decode`, `b64encode`,
  `b64decode`.
-/

/-- Decidable equality for `Except`, used to evaluate the model on concrete
inputs. -/
instance exceptDecEq {e a : Type} [DecidableEq e] [DecidableEq a] :
    DecidableEq (Except e a)
  | .error x, .error y =>
    if h : x = y then .isTrue (by rw [h])
    else .isFalse fun hc => h (Except.error.inj hc)
  | .error _, .ok _ => .isFalse fun hc => Except.noConfusion hc
  | .ok _, .error _ => .isFalse fun hc => Except.noConfusion hc
  | .ok x, .ok y =>
    if h : x = y then .isTrue (by rw [h])
    else .isFalse fun hc => h (Except.ok.inj hc)

/-- `IV_LENGTH` from the source: 12-byte nonce for AES-GCM. -/
def IV_LENGTH : Nat := 12

/-- `TAG_LENGTH` from the source: 128-bit authentication tag. -/
def TAG_LENGTH : Nat := 128

/-- Byte length of the authentication tag (`TAG_LENGTH / 8`). -/
def TAG_BYTES : Nat := TAG_LENGTH / 8

/-! ## Base64 (Node `Buffer` / `btoa`-`atob` path)

`encrypt` encodes with `Buffer.from(combined).toString("base64")` (standard
alphabet, `=` padding); `decrypt` decodes with `Buffer.from(s, "base64")`,
which is *forgiving*: characters outside the base64 alphabet are ignored, and
a trailing group of a single 6-bit value contributes no byte. -/

/-- The base64 alphabet: 6-bit value to ASCII code. -/
def b64chr (n : Nat) : Nat :=
  if n < 26 then 65 + n
  else if n < 52 then 97 + (n - 26)
  else if n < 62 then 48 + (n - 52)
  else if n = 62 then 43
  else 47

/-- Inverse alphabet lookup: ASCII code to 6-bit value, `none` for characters
outside the base64 alphabet (including `=`). -/
def b64Index (c : Nat) : Option Nat :=
  if 65 ≤ c ∧ c ≤ 90 then some (c - 65)
  else if 97 ≤ c ∧ c ≤ 122 then some (26 + (c - 97))
  else if 48 ≤ c ∧ c ≤ 57 then some (52 + (c - 48))
  else if c = 43 then some 62
  else if c = 47 then some 63
  else none

/-- Standard base64 encoding of a byte list (3 bytes to 4 chars, `=` padded),
as produced by `Buffer.prototype.toString("base64")` and `btoa`. -/
def b64encode : List Nat → List Nat
  | [] => []
  | [b1] => [b64chr (b1 / 4), b64chr (b1 % 4 * 16), 61, 61]
  | [b1, b2] => [b64chr (b1 / 4), b64chr (b1 % 4 * 16 + b2 / 16),
      b64chr (b2 % 16 * 4), 61]
  | b1 :: b2 :: b3 :: rest =>
      b64chr (b1 / 4) :: b64chr (b1 % 4 * 16 + b2 / 16) ::
      b64chr (b2 % 16 * 4 + b3 / 64) :: b64chr (b3 % 64) :: b64encode rest

/-- The 6-bit values of a string's base64-alphabet characters, every other
character (`=` included) ignored — Node's forgiving scanner. -/
def b64vals (s : List Nat) : List Nat := s.filterMap b64Index

/-- Reassemble bytes from 6-bit values: each full group of 4 gives 3 bytes, a
trailing group of 3 gives 2 bytes, of 2 gives 1 byte, of 1 gives none. -/
def b64group : List Nat → List Nat
  | v1 :: v2 :: v3 :: v4 :: rest =>
      (v1 * 4 + v2 / 16) :: (v2 % 16 * 16 + v3 / 4) :: (v3 % 4 * 64 + v4) ::
        b64group rest
  | [v1, v2, v3] => [v1 * 4 + v2 / 16, v2 % 16 * 16 + v3 / 4]
  | [v1, v2] => [v1 * 4 + v2 / 16]
  | _ => []

/-- Modelled from the spec (§4.2 `decrypt` step "base64-decode to bytes") and
Node `Buffer.from(s, "base64")` semantics: forgiving decode that ignores
non-alphabet characters. -/
def b64decode (s : List Nat) : List Nat := b64group (b64vals s)

/-- A string consisting only of base64 alphabet characters and `=`: a
necessary condition for being well-formed base64 (used to state that an input
is *not* valid base64). -/
def b64StrictChars (s : List Nat) : Bool :=
  s.all fun c => (b64Index c).isSome || c == 61

/-! ## UTF-16 / UTF-8 (`TextEncoder`, `TextDecoder`)

`TextEncoder.encode` first converts the UTF-16 code-unit sequence to Unicode
scalar values (WHATWG: a lone surrogate becomes U+FFFD), then UTF-8-encodes;
`TextDecoder.decode` (default, non-fatal) parses UTF-8 with U+FFFD
replacement and returns a UTF-16 code-unit sequence. -/

/-- Is `u` a UTF-16 surrogate code unit? -/
def isSurrogate (u : Nat) : Bool := 0xD800 ≤ u && u < 0xE000

/-- Is `u` a high (leading) surrogate? -/
def isHighSurrogate (u : Nat) : Bool := 0xD800 ≤ u && u < 0xDC00

/-- Is `u` a low (trailing) surrogate? -/
def isLowSurrogate (u : Nat) : Bool := 0xDC00 ≤ u && u < 0xE000

/-- Modelled from the spec (`TextEncoder` is a platform primitive): WHATWG
conversion of a UTF-16 code-unit sequence to scalar values; a surrogate pair
combines, a lone surrogate becomes U+FFFD (0xFFFD). -/
def toScalars : List Nat → List Nat
  | [] => []
  | [u] => [if isSurrogate u then 0xFFFD else u]
  | u :: u2 :: rest =>
      if isHighSurrogate u && isLowSurrogate u2 then
        (0x10000 + (u - 0xD800) * 0x400 + (u2 - 0xDC00)) :: toScalars rest
      else
        (if isSurrogate u then 0xFFFD else u) :: toScalars (u2 :: rest)

/-- UTF-8 encoding of one Unicode scalar value. -/
def utf8Enc1 (c : Nat) : List Nat :=
  if c < 0x80 then [c]
  else if c < 0x800 then [0xC0 + c / 64, 0x80 + c % 64]
  else if c < 0x10000 then
    [0xE0 + c / 4096, 0x80 + c / 64 % 64, 0x80 + c % 64]
  else
    [0xF0 + c / 262144, 0x80 + c / 4096 % 64, 0x80 + c / 64 % 64,
      0x80 + c % 64]

/-- Modelled from the spec ("the UTF-8-encoded plaintext bytes"): UTF-8
encoding of a scalar-value sequence. -/
def utf8Encode : List Nat → List Nat
  | [] => []
  | c :: rest => utf8Enc1 c ++ utf8Encode rest

/-- Is `b` a UTF-8 continuation byte? -/
def isCont (b : Nat) : Bool := 0x80 ≤ b && b < 0xC0

/-- Second-byte range check for a 3-byte lead (WHATWG: excludes overlong
encodings and surrogates). -/
def isCont3 (b b2 : Nat) : Bool :=
  if b = 0xE0 then 0xA0 ≤ b2 && b2 < 0xC0
  else if b = 0xED then 0x80 ≤ b2 && b2 < 0xA0
  else isCont b2

/-- Second-byte range check for a 4-byte lead (WHATWG: excludes overlong
encodings and values above U+10FFFF). -/
def isCont4 (b b2 : Nat) : Bool :=
  if b = 0xF0 then 0x90 ≤ b2 && b2 < 0xC0
  else if b = 0xF4 then 0x80 ≤ b2 && b2 < 0x90
  else isCont b2

/-- One step of the WHATWG UTF-8 decoder: given a lead byte `b` and the
remaining stream, return the emitted scalar (U+FFFD on malformed input) and
how many further bytes were consumed; an offending byte is reconsumed, a
truncated-at-end sequence consumes its valid prefix. -/
def utf8Step (b : Nat) (rest : List Nat) : Nat × Nat :=
  if b < 0x80 then (b, 0)
  else if 0xC2 ≤ b && b < 0xE0 then
    match rest with
    | b2 :: _ => if isCont b2 then ((b - 0xC0) * 64 + (b2 - 0x80), 1) else (0xFFFD, 0)
    | [] => (0xFFFD, 0)
  else if 0xE0 ≤ b && b < 0xF0 then
    match rest with
    | b2 :: rest2 =>
        if isCont3 b b2 then
          match rest2 with
          | b3 :: _ =>
              if isCont b3 then
                ((b - 0xE0) * 4096 + (b2 - 0x80) * 64 + (b3 - 0x80), 2)
              else (0xFFFD, 1)
          | [] => (0xFFFD, 1)
        else (0xFFFD, 0)
    | [] => (0xFFFD, 0)
  else if 0xF0 ≤ b && b < 0xF5 then
    match rest with
    | b2 :: rest2 =>
        if isCont4 b b2 then
          match rest2 with
          | b3 :: rest3 =>
              if isCont b3 then
                match rest3 with
                | b4 :: _ =>
                    if isCont b4 then
                      ((b - 0xF0) * 262144 + (b2 - 0x80) * 4096 +
                        (b3 - 0x80) * 64 + (b4 - 0x80), 3)
                    else (0xFFFD, 2)
                | [] => (0xFFFD, 2)
              else (0xFFFD, 1)
          | [] => (0xFFFD, 1)
        else (0xFFFD, 0)
    | [] => (0xFFFD, 0)
  else (0xFFFD, 0)

/-- Fuel-driven driver of the UTF-8 decoder (structural recursion on the
fuel, so that concrete inputs evaluate by kernel reduction); the fuel is
always at least the stream length. -/
def utf8DecodeAux : Nat → List Nat → List Nat
  | 0, _ => []
  | _, [] => []
  | fuel + 1, b :: rest =>
      (utf8Step b rest).1 :: utf8DecodeAux fuel (rest.drop (utf8Step b rest).2)

/-- Modelled from the spec ("decode the released bytes as UTF-8";
`TextDecoder` default mode is a platform primitive): UTF-8 decoding to
scalar values with U+FFFD replacement on malformed input. -/
def utf8Decode (l : List Nat) : List Nat := utf8DecodeAux l.length l

/-- Scalar values back to UTF-16 code units (supplementary scalars become a
surrogate pair) — the string returned by `TextDecoder.decode`. -/
def toCodeUnits : List Nat → List Nat
  | [] => []
  | c :: rest =>
      if c < 0x10000 then c :: toCodeUnits rest
      else (0xD800 + (c - 0x10000) / 0x400) ::
        (0xDC00 + (c - 0x10000) % 0x400) :: toCodeUnits rest

/-- A JS string is well-formed Unicode (a USV string): every surrogate code
unit occurs as part of a high/low pair, and every unit is a real UTF-16 code
unit (`< 65536`). -/
def wellFormed : List Nat → Bool
  | [] => true
  | [u] => u < 65536 && !(isSurrogate u)
  | u :: u2 :: rest =>
      if isHighSurrogate u && isLowSurrogate u2 then wellFormed rest
      else (u < 65536 && !(isSurrogate u)) && wellFormed (u2 :: rest)

/-! ## Key import (`getEncryptionKey`) and Zod validation (`envConfig.ts`) -/

/-- JS `RegExp` line terminators, which `.` does not match. -/
def isLineTerm (c : Nat) : Bool := c == 10 || c == 13 || c == 0x2028 || c == 0x2029

/-- `s.match(/.{2}/g)`: every non-overlapping pair of consecutive
non-line-terminator characters; an unmatched trailing character is silently
dropped. -/
def hexPairs : List Nat → List (Nat × Nat)
  | a :: b :: r =>
      if isLineTerm a then hexPairs (b :: r)
      else if isLineTerm b then hexPairs r
      else (a, b) :: hexPairs r
  | _ => []

/-- The numeric value of a base-16 digit character (both cases), as accepted
by `Number.parseInt(_, 16)`. -/
def hexDigit (c : Nat) : Option Nat :=
  if 48 ≤ c ∧ c ≤ 57 then some (c - 48)
  else if 97 ≤ c ∧ c ≤ 102 then some (c - 97 + 10)
  else if 65 ≤ c ∧ c ≤ 70 then some (c - 65 + 10)
  else none

/-- `Number.parseInt(s, 16)` on a 2-character string: optional sign or
leading whitespace, then the longest prefix of hex digits; `none` models
`NaN`. (The `0x`-prefix case `parseInt("0x", 16) = NaN` and this model's
`some 0` coincide after the `Uint8Array` coercion below.) -/
def parseIntPair (a b : Nat) : Option Int :=
  match hexDigit a with
  | some v1 =>
      match hexDigit b with
      | some v2 => some (v1 * 16 + v2)
      | none => some v1
  | none =>
      if a = 43 then (hexDigit b).map (Int.ofNat ·)
      else if a = 45 then (hexDigit b).map (fun v => -(Int.ofNat v))
      else if a = 32 || a = 9 || isLineTerm a then (hexDigit b).map (Int.ofNat ·)
      else none

/-- Storing a JS number into a `Uint8Array`: `NaN` becomes 0, otherwise the
integer is taken modulo 256. -/
def toUint8 : Option Int → Nat
  | none => 0
  | some i => (i % 256).toNat

/-- `getEncryptionKey` (source lines 18–36): split the key string into
2-character matches, parse each as a hex byte (`parseInt` + `Uint8Array`
coercion), and import the raw bytes as an AES key.  The `match` result is
`null` (so the function throws "Invalid ENCRYPTION_KEY format") only when
there is no 2-character match at all; `crypto.subtle.importKey` accepts raw
AES key material of 16, 24 or 32 bytes and otherwise rejects with a
`DataError`. -/
def getEncryptionKey (keyHex : List Nat) : Except String (List Nat) :=
  let pairs := hexPairs keyHex
  if pairs = [] then .error "Invalid ENCRYPTION_KEY format"
  else
    let keyBytes := pairs.map fun p => toUint8 (parseIntPair p.1 p.2)
    if keyBytes.length = 16 ∨ keyBytes.length = 24 ∨ keyBytes.length = 32 then
      .ok keyBytes
    else .error "DataError"

/-- Is `c` a lowercase hex character (`[0-9a-f]`)? -/
def isLowerHex (c : Nat) : Bool := (48 ≤ c && c ≤ 57) || (97 ≤ c && c ≤ 102)

/-- The `envConfig.ts` Zod contract for `ENCRYPTION_KEY`: exactly 64
characters and matching `/^[0-9a-f]{64}$/`. -/
def zodValidKey (s : List Nat) : Bool := s.length == 64 && s.all isLowerHex

/-- The `envConfig.ts` Zod validation of `ENCRYPTION_KEY`: both checks run
and every failed check contributes its issue message. -/
def envValidateEncryptionKey (s : List Nat) : Except (List String) Unit :=
  let issues :=
    (if s.length = 64 then []
     else ["ENCRYPTION_KEY must be exactly 64 hex characters (32 bytes)"]) ++
    (if s.length = 64 ∧ s.all isLowerHex then []
     else ["ENCRYPTION_KEY must be a valid hex string (generate with: openssl rand -hex 32)"])
  if issues = [] then .ok () else .error issues

/-- The key-import path of the running system: `envConfig.ts` validates
`ENCRYPTION_KEY` at startup (a failure throws before any codec call), then
`getEncryptionKey` derives the key handle. -/
def keyImport (s : List Nat) : Except (List String) (List Nat) :=
  match envValidateEncryptionKey s with
  | .error issues => .error issues
  | .ok _ =>
      match getEncryptionKey s with
      | .error m => .error [m]
      | .ok k => .ok k

/-! ## The AES-256-GCM primitive (`crypto.subtle`)

Modelled from the spec (§3, §4.1): the WebCrypto AES-GCM implementation is a
platform primitive, not repository code.  Faithful to the spec's structure,
the model is a counter-mode keystream cipher — `ciphertext = plaintext XOR
keystream(key, iv)` — followed by a 16-byte authentication tag computed over
the key, the nonce and the ciphertext (a GHASH-style column XOR with a
key/nonce mask); decryption recomputes and verifies the tag over the
ciphertext before releasing any plaintext bytes, exactly as §4.1 requires,
and rejects inputs shorter than the tag. -/

/-- A mixing accumulator used by the keystream model. -/
def mix (l : List Nat) : Nat := l.foldl (fun a b => (a * 131 + b + 7) % 65521) 1

/-- Modelled from the spec: the deterministic keystream of the AEAD cipher as
a function of key, nonce and byte index. -/
def keystream (key iv : List Nat) (n : Nat) : List Nat :=
  (List.range n).map fun i => (mix key * (i + 1) + mix iv * (i + 3) + i) % 256

/-- Pointwise XOR of two byte lists. -/
def xorBytes (a b : List Nat) : List Nat := List.zipWith (· ^^^ ·) a b

/-- XOR of the elements of `l` at positions congruent to `j` modulo 16 — the
`j`-th column of the 16-byte blocks of `l` (GHASH-style block folding). -/
def colXor : List Nat → Nat → Nat
  | [], _ => 0
  | x :: xs, 0 => x ^^^ colXor xs 15
  | _ :: xs, j + 1 => colXor xs j

/-- Modelled from the spec: the 16-byte (128-bit) authentication tag over
key, nonce and ciphertext.  Each tag byte masks the corresponding key and
nonce byte into the matching ciphertext block column, so any single-byte
change to nonce, ciphertext or tag breaks verification. -/
def gcmTag (key iv ct : List Nat) : List Nat :=
  (List.range TAG_BYTES).map fun j => key.getD j 0 ^^^ iv.getD j 0 ^^^ colXor ct j

/-- Modelled from the spec: `crypto.subtle.encrypt` for AES-GCM — the
ciphertext is the encrypted plaintext immediately followed by the 16-byte
authentication tag. -/
def subtleEncrypt (key iv pt : List Nat) : List Nat :=
  let ct := xorBytes pt (keystream key iv pt.length)
  ct ++ gcmTag key iv ct

/-- Modelled from the spec: `crypto.subtle.decrypt` for AES-GCM — reject
inputs shorter than the tag, recompute and verify the tag over the
ciphertext, and only then release the decrypted bytes; any failure is the
single `OperationError` rejection. -/
def subtleDecrypt (key iv data : List Nat) : Option (List Nat) :=
  if data.length < TAG_BYTES then none
  else
    let ct := data.take (data.length - TAG_BYTES)
    let tg := data.drop (data.length - TAG_BYTES)
    if tg = gcmTag key iv ct then some (xorBytes ct (keystream key iv ct.length))
    else none

/-! ## The codec (`encrypt`, `decrypt`, `safeDecrypt`) -/

/-- `encrypt` (source lines 46–66): import the key, UTF-8-encode the
plaintext, AES-GCM-encrypt it under the freshly drawn 12-byte `iv` (made an
explicit parameter here), prepend the `iv` and base64-encode.  A key-import
failure propagates. -/
def encrypt (keyHex iv plaintext : List Nat) : Except String (List Nat) :=
  match getEncryptionKey keyHex with
  | .error e => .error e
  | .ok key =>
      let plaintextBytes := utf8Encode (toScalars plaintext)
      let ciphertext := subtleEncrypt key iv plaintextBytes
      .ok (b64encode (iv ++ ciphertext))

/-- `decrypt` (source lines 75–99): import the key, base64-decode the
envelope (forgiving Node decode), split off the first 12 bytes as the nonce,
AES-GCM-decrypt-and-verify the remainder, and UTF-8-decode the released
bytes. -/
def decrypt (keyHex envelope : List Nat) : Except String (List Nat) :=
  match getEncryptionKey keyHex with
  | .error e => .error e
  | .ok key =>
      let combined := b64decode envelope
      let iv := combined.take IV_LENGTH
      let ciphertext := combined.drop IV_LENGTH
      match subtleDecrypt key iv ciphertext with
      | none => .error "OperationError"
      | some plaintextBytes => .ok (toCodeUnits (utf8Decode plaintextBytes))

/-- `safeDecrypt` (source lines 108–116): `try { return await decrypt(…) }
catch { return null }`. -/
def safeDecrypt (keyHex envelope : List Nat) : Option (List Nat) :=
  match decrypt keyHex envelope with
  | .ok p => some p
  | .error _ => none

/-- Flip bit `b` of the byte at index `i`. -/
def flipBit (l : List Nat) (i b : Nat) : List Nat :=
  l.set i (l.getD i 0 ^^^ 2 ^ b)

/-- A Unicode scalar value as produced by the USV conversion: in range and
not a surrogate. -/
def validScalar (c : Nat) : Bool := c < 0x110000 && !(isSurrogate c)

/-- The spec's concrete test key: `"00" * 32`, i.e. 64 `'0'` characters. -/
def key0 : List Nat := List.replicate 64 48

/-- A concrete 12-byte nonce for the concrete scenarios. -/
def iv0 : List Nat := List.replicate 12 0

/-- The code units of `"hello world"`. -/
def helloWorld : List Nat := [104, 101, 108, 108, 111, 32, 119, 111, 114, 108, 100]

/-- The concrete envelope of the spec's scenarios: plaintext `"A"` under
`key0` with nonce `iv0` (empty list if encryption failed, which it does not). -/
def envA : List Nat :=
  match encrypt key0 iv0 [65] with
  | .ok e => e
  | .error _ => []

/-- The concrete envelope of `"hello world"` under `key0` with nonce `iv0`. -/
def envHello : List Nat :=
  match encrypt key0 iv0 helloWorld with
  | .ok e => e
  | .error _ => []

/-- The concrete envelope of `""` under `key0` with nonce `iv0`. -/
def envEmpty : List Nat :=
  match encrypt key0 iv0 [] with
  | .ok e => e
  | .error _ => []

/-! ## Byte-level lemmas -/

theorem xor_lt_256 {a b : Nat} (ha : a < 256) (hb : b < 256) : a ^^^ b < 256 := by
  have h : a ^^^ b < 2 ^ 8 := Nat.xor_lt_two_pow (by omega) (by omega)
  simpa using h

theorem xor_flip_ne {x m : Nat} (hm : m ≠ 0) : x ^^^ m ≠ x := by
  intro h
  exact hm (Nat.xor_right_inj.mp (h.trans (Nat.xor_zero x).symm))

theorem xorBytes_length (a b : List Nat) :
    (xorBytes a b).length = min a.length b.length := by
  simp [xorBytes]

theorem xorBytes_cancel : ∀ (a b : List Nat), a.length ≤ b.length →
    xorBytes (xorBytes a b) b = a
  | [], _, _ => rfl
  | _ :: _, [], h => by simp at h
  | a :: as, b :: bs, h => by
    simp only [xorBytes, List.zipWith_cons_cons] at *
    refine congrArg₂ _ (Nat.xor_cancel_right b a) ?_
    exact xorBytes_cancel as bs (by simpa using h)

theorem mem_xorBytes_lt : ∀ {a b : List Nat}, (∀ x ∈ a, x < 256) →
    (∀ x ∈ b, x < 256) → ∀ x ∈ xorBytes a b, x < 256
  | [], _, _, _ => by simp [xorBytes]
  | _ :: _, [], _, _ => by simp [xorBytes]
  | a :: as, b :: bs, ha, hb => by
    simp only [xorBytes, List.zipWith_cons_cons, List.mem_cons]
    rintro x (rfl | hx)
    · exact xor_lt_256 (ha a (by simp)) (hb b (by simp))
    · exact mem_xorBytes_lt (fun y hy => ha y (by simp [hy]))
        (fun y hy => hb y (by simp [hy])) x hx

theorem keystream_length (key iv : List Nat) (n : Nat) :
    (keystream key iv n).length = n := by
  simp [keystream]

theorem mem_keystream_lt (key iv : List Nat) (n : Nat) :
    ∀ x ∈ keystream key iv n, x < 256 := by
  intro x hx
  simp only [keystream, List.mem_map] at hx
  obtain ⟨i, -, rfl⟩ := hx
  exact Nat.mod_lt _ (by omega)

theorem getD_lt_of_forall {l : List Nat} (h : ∀ x ∈ l, x < 256) (j : Nat) :
    l.getD j 0 < 256 := by
  rcases Nat.lt_or_ge j l.length with hj | hj
  · rw [List.getD_eq_getElem _ _ hj]
    exact h _ (List.getElem_mem hj)
  · rw [List.getD_eq_default _ _ hj]
    omega

/-! ## Base64 lemmas -/

theorem b64Index_b64chr_all : ∀ n, n < 64 → b64Index (b64chr n) = some n := by
  decide

theorem b64Index_b64chr {n : Nat} (h : n < 64) : b64Index (b64chr n) = some n :=
  b64Index_b64chr_all n h

theorem b64chr_lt {n : Nat} (h : n < 64) : b64chr n < 256 := by
  unfold b64chr
  split_ifs <;> omega

theorem b64Index_pad_bang : b64Index 61 = none ∧ b64Index 33 = none := by
  constructor <;> rfl

theorem b64vals_append (s t : List Nat) :
    b64vals (s ++ t) = b64vals s ++ b64vals t := by
  simp [b64vals]

theorem b64_roundtrip : ∀ (l : List Nat), (∀ x ∈ l, x < 256) →
    b64decode (b64encode l) = l
  | [], _ => rfl
  | [b1], h => by
    have hb1 : b1 < 256 := h b1 (by simp)
    have h1 : b1 / 4 < 64 := by omega
    have h2 : b1 % 4 * 16 < 64 := by omega
    simp only [b64encode, b64decode, b64vals, List.filterMap,
      b64Index_b64chr h1, b64Index_b64chr h2]
    show b64group [b1 / 4, b1 % 4 * 16] = [b1]
    simp only [b64group]
    congr 1
    omega
  | [b1, b2], h => by
    have hb1 : b1 < 256 := h b1 (by simp)
    have hb2 : b2 < 256 := h b2 (by simp)
    have h1 : b1 / 4 < 64 := by omega
    have h2 : b1 % 4 * 16 + b2 / 16 < 64 := by omega
    have h3 : b2 % 16 * 4 < 64 := by omega
    simp only [b64encode, b64decode, b64vals, List.filterMap,
      b64Index_b64chr h1, b64Index_b64chr h2, b64Index_b64chr h3]
    show b64group [b1 / 4, b1 % 4 * 16 + b2 / 16, b2 % 16 * 4] = [b1, b2]
    simp only [b64group]
    congr 1
    · omega
    · congr 1
      omega
  | b1 :: b2 :: b3 :: rest, h => by
    have hb1 : b1 < 256 := h b1 (by simp)
    have hb2 : b2 < 256 := h b2 (by simp)
    have hb3 : b3 < 256 := h b3 (by simp)
    have h1 : b1 / 4 < 64 := by omega
    have h2 : b1 % 4 * 16 + b2 / 16 < 64 := by omega
    have h3 : b2 % 16 * 4 + b3 / 64 < 64 := by omega
    have h4 : b3 % 64 < 64 := by omega
    have ih := b64_roundtrip rest (fun x hx => h x (by simp [hx]))
    simp only [b64encode, b64decode, b64vals, List.filterMap,
      b64Index_b64chr h1, b64Index_b64chr h2, b64Index_b64chr h3,
      b64Index_b64chr h4]
    show b64group (b1 / 4 :: (b1 % 4 * 16 + b2 / 16) ::
      (b2 % 16 * 4 + b3 / 64) :: b3 % 64 :: b64vals (b64encode rest)) =
      b1 :: b2 :: b3 :: rest
    simp only [b64group]
    refine congrArg₂ _ (by omega) (congrArg₂ _ (by omega) (congrArg₂ _ (by omega) ?_))
    exact ih

theorem mem_b64encode_lt : ∀ (l : List Nat), (∀ x ∈ l, x < 256) →
    ∀ c ∈ b64encode l, c < 256
  | [], _ => by simp [b64encode]
  | [b1], h => by
    have hb1 : b1 < 256 := h b1 (by simp)
    simp only [b64encode, List.mem_cons, List.not_mem_nil, or_false]
    rintro c (rfl | rfl | rfl | rfl) <;>
      first | omega | exact b64chr_lt (by omega)
  | [b1, b2], h => by
    have hb1 : b1 < 256 := h b1 (by simp)
    have hb2 : b2 < 256 := h b2 (by simp)
    simp only [b64encode, List.mem_cons, List.not_mem_nil, or_false]
    rintro c (rfl | rfl | rfl | rfl) <;>
      first | omega | exact b64chr_lt (by omega)
  | b1 :: b2 :: b3 :: rest, h => by
    have hb1 : b1 < 256 := h b1 (by simp)
    have hb2 : b2 < 256 := h b2 (by simp)
    have hb3 : b3 < 256 := h b3 (by simp)
    have ih := mem_b64encode_lt rest (fun x hx => h x (by simp [hx]))
    simp only [b64encode, List.mem_cons]
    rintro c (rfl | rfl | rfl | rfl | hc)
    · exact b64chr_lt (by omega)
    · exact b64chr_lt (by omega)
    · exact b64chr_lt (by omega)
    · exact b64chr_lt (by omega)
    · exact ih c hc

theorem b64encode_inj {l1 l2 : List Nat} (h1 : ∀ x ∈ l1, x < 256)
    (h2 : ∀ x ∈ l2, x < 256) (h : b64encode l1 = b64encode l2) : l1 = l2 := by
  have := congrArg b64decode h
  rwa [b64_roundtrip l1 h1, b64_roundtrip l2 h2] at this

/-! ## UTF-8 lemmas -/

theorem mem_utf8Enc1_lt {c : Nat} (hc : c < 0x110000) :
    ∀ b ∈ utf8Enc1 c, b < 256 := by
  intro b hb
  unfold utf8Enc1 at hb
  by_cases h1 : c < 0x80
  · rw [if_pos h1] at hb
    simp only [List.mem_cons, List.not_mem_nil, or_false] at hb
    omega
  · rw [if_neg h1] at hb
    by_cases h2 : c < 0x800
    · rw [if_pos h2] at hb
      simp only [List.mem_cons, List.not_mem_nil, or_false] at hb
      omega
    · rw [if_neg h2] at hb
      by_cases h3 : c < 0x10000
      · rw [if_pos h3] at hb
        simp only [List.mem_cons, List.not_mem_nil, or_false] at hb
        omega
      · rw [if_neg h3] at hb
        simp only [List.mem_cons, List.not_mem_nil, or_false] at hb
        omega

theorem mem_utf8Encode_lt : ∀ (l : List Nat), (∀ c ∈ l, c < 0x110000) →
    ∀ b ∈ utf8Encode l, b < 256
  | [], _ => by simp [utf8Encode]
  | c :: rest, h => by
    simp only [utf8Encode, List.mem_append]
    rintro b (hb | hb)
    · exact mem_utf8Enc1_lt (h c (by simp)) b hb
    · exact mem_utf8Encode_lt rest (fun x hx => h x (by simp [hx])) b hb

theorem utf8Step_ascii {b : Nat} (h : b < 0x80) (rest : List Nat) :
    utf8Step b rest = (b, 0) := by
  rw [utf8Step.eq_def, if_pos h]

theorem utf8Step_two {b b2 : Nat} (h1 : 0xC2 ≤ b) (h2 : b < 0xE0)
    (h3 : isCont b2 = true) (bs : List Nat) :
    utf8Step b (b2 :: bs) = ((b - 0xC0) * 64 + (b2 - 0x80), 1) := by
  have hcond : (0xC2 ≤ b && b < 0xE0) = true := by
    simp only [Bool.and_eq_true, decide_eq_true_eq]
    omega
  rw [utf8Step.eq_def, if_neg (by omega), if_pos hcond]
  simp only [h3, if_pos]

theorem utf8Step_three {b b2 b3 : Nat} (h1 : 0xE0 ≤ b) (h2 : b < 0xF0)
    (h3 : isCont3 b b2 = true) (h4 : isCont b3 = true) (bs : List Nat) :
    utf8Step b (b2 :: b3 :: bs) =
      ((b - 0xE0) * 4096 + (b2 - 0x80) * 64 + (b3 - 0x80), 2) := by
  have hno2 : ¬(0xC2 ≤ b && b < 0xE0) = true := by
    simp only [Bool.and_eq_true, decide_eq_true_eq]
    omega
  have hcond : (0xE0 ≤ b && b < 0xF0) = true := by
    simp only [Bool.and_eq_true, decide_eq_true_eq]
    omega
  rw [utf8Step.eq_def, if_neg (by omega), if_neg hno2, if_pos hcond]
  simp only [h3, h4, if_pos]

theorem utf8Step_four {b b2 b3 b4 : Nat} (h1 : 0xF0 ≤ b) (h2 : b < 0xF5)
    (h3 : isCont4 b b2 = true) (h4 : isCont b3 = true) (h5 : isCont b4 = true)
    (bs : List Nat) :
    utf8Step b (b2 :: b3 :: b4 :: bs) =
      ((b - 0xF0) * 262144 + (b2 - 0x80) * 4096 + (b3 - 0x80) * 64 + (b4 - 0x80), 3) := by
  have hno2 : ¬(0xC2 ≤ b && b < 0xE0) = true := by
    simp only [Bool.and_eq_true, decide_eq_true_eq]
    omega
  have hno3 : ¬(0xE0 ≤ b && b < 0xF0) = true := by
    simp only [Bool.and_eq_true, decide_eq_true_eq]
    omega
  have hcond : (0xF0 ≤ b && b < 0xF5) = true := by
    simp only [Bool.and_eq_true, decide_eq_true_eq]
    omega
  rw [utf8Step.eq_def, if_neg (by omega), if_neg hno2, if_neg hno3, if_pos hcond]
  simp only [h3, h4, h5, if_pos]

theorem utf8Decode_nil : utf8Decode [] = [] := rfl

theorem utf8DecodeAux_eq : ∀ (fuel : Nat) (l : List Nat), l.length ≤ fuel →
    utf8DecodeAux fuel l = utf8Decode l
  | fuel, [], _ => by cases fuel <;> rfl
  | 0, _ :: _, h => by simp at h
  | fuel + 1, b :: rest, h => by
    have hd : (rest.drop (utf8Step b rest).2).length ≤ rest.length := by
      rw [List.length_drop]
      omega
    have hlen : rest.length ≤ fuel := by
      simp only [List.length_cons] at h
      omega
    rw [utf8DecodeAux]
    rw [utf8Decode, List.length_cons, utf8DecodeAux]
    exact congrArg _ ((utf8DecodeAux_eq fuel _ (by omega)).trans
      (utf8DecodeAux_eq rest.length _ hd).symm)
termination_by fuel _ => fuel

theorem utf8Decode_cons (b : Nat) (rest : List Nat) :
    utf8Decode (b :: rest) =
      (utf8Step b rest).1 :: utf8Decode (rest.drop (utf8Step b rest).2) := by
  rw [utf8Decode, List.length_cons, utf8DecodeAux]
  refine congrArg _ (utf8DecodeAux_eq rest.length _ ?_)
  rw [List.length_drop]
  omega

theorem utf8Decode_enc1 {c : Nat} (hc : validScalar c = true) (bs : List Nat) :
    utf8Decode (utf8Enc1 c ++ bs) = c :: utf8Decode bs := by
  have hrange : c < 0x110000 ∧ (c < 0xD800 ∨ 0xE000 ≤ c) := by
    simpa [validScalar, isSurrogate, Bool.and_eq_true, decide_eq_true_eq,
      Nat.not_lt, Nat.not_le] using hc
  obtain ⟨h1, h2⟩ := hrange
  have hcont : ∀ v : Nat, isCont (0x80 + v % 64) = true := by
    intro v
    simp only [isCont, Bool.and_eq_true, decide_eq_true_eq]
    omega
  unfold utf8Enc1
  split_ifs with ha hb hcc
  · simp only [List.cons_append, List.nil_append]
    rw [utf8Decode_cons, utf8Step_ascii ha]
    simp [List.drop]
  · simp only [List.cons_append, List.nil_append]
    rw [utf8Decode_cons, utf8Step_two (by omega) (by omega) (hcont c)]
    simp only [List.drop_succ_cons, List.drop_zero]
    congr 1
    omega
  · have h3cond : isCont3 (0xE0 + c / 4096) (0x80 + c / 64 % 64) = true := by
      unfold isCont3 isCont
      split_ifs with hE0 hED
      · simp only [Bool.and_eq_true, decide_eq_true_eq]
        omega
      · simp only [Bool.and_eq_true, decide_eq_true_eq]
        omega
      · simp only [Bool.and_eq_true, decide_eq_true_eq]
        omega
    simp only [List.cons_append, List.nil_append]
    rw [utf8Decode_cons, utf8Step_three (by omega) (by omega) h3cond (hcont c)]
    simp only [List.drop_succ_cons, List.drop_zero]
    congr 1
    omega
  · have h4cond : isCont4 (0xF0 + c / 262144) (0x80 + c / 4096 % 64) = true := by
      unfold isCont4 isCont
      split_ifs with hF0 hF4
      · simp only [Bool.and_eq_true, decide_eq_true_eq]
        omega
      · simp only [Bool.and_eq_true, decide_eq_true_eq]
        omega
      · simp only [Bool.and_eq_true, decide_eq_true_eq]
        omega
    simp only [List.cons_append, List.nil_append]
    rw [utf8Decode_cons, utf8Step_four (by omega) (by omega) h4cond (hcont (c / 64)) (hcont c)]
    simp only [List.drop_succ_cons, List.drop_zero]
    congr 1
    omega

theorem utf8_roundtrip : ∀ (l : List Nat), (∀ c ∈ l, validScalar c = true) →
    utf8Decode (utf8Encode l) = l
  | [], _ => by
    simp [utf8Encode, utf8Decode_nil]
  | c :: rest, h => by
    simp only [utf8Encode]
    rw [utf8Decode_enc1 (h c (by simp))]
    exact congrArg _ (utf8_roundtrip rest (fun x hx => h x (by simp [hx])))

/-! ## USV conversion lemmas -/

theorem isSurrogate_iff {u : Nat} : isSurrogate u = true ↔ 0xD800 ≤ u ∧ u < 0xE000 := by
  simp [isSurrogate]

theorem isSurrogate_false_iff {u : Nat} :
    isSurrogate u = false ↔ u < 0xD800 ∨ 0xE000 ≤ u := by
  simp only [isSurrogate, Bool.and_eq_false_iff, decide_eq_false_iff_not,
    Nat.not_le, Nat.not_lt]

theorem isHighSurrogate_iff {u : Nat} :
    isHighSurrogate u = true ↔ 0xD800 ≤ u ∧ u < 0xDC00 := by
  simp [isHighSurrogate]

theorem isLowSurrogate_iff {u : Nat} :
    isLowSurrogate u = true ↔ 0xDC00 ≤ u ∧ u < 0xE000 := by
  simp [isLowSurrogate]

theorem validScalar_iff {c : Nat} :
    validScalar c = true ↔ c < 0x110000 ∧ (c < 0xD800 ∨ 0xE000 ≤ c) := by
  simp only [validScalar, Bool.and_eq_true, decide_eq_true_eq,
    Bool.not_eq_true', isSurrogate_false_iff]

theorem toCodeUnits_cons_small {c : Nat} (h : c < 0x10000) (r : List Nat) :
    toCodeUnits (c :: r) = c :: toCodeUnits r := by
  rw [toCodeUnits, if_pos h]

theorem toCodeUnits_cons_big {c : Nat} (h : ¬c < 0x10000) (r : List Nat) :
    toCodeUnits (c :: r) =
      (0xD800 + (c - 0x10000) / 0x400) :: (0xDC00 + (c - 0x10000) % 0x400) ::
        toCodeUnits r := by
  rw [toCodeUnits, if_neg h]

theorem toScalars_pair {u u2 : Nat} (h : (isHighSurrogate u && isLowSurrogate u2) = true)
    (rest : List Nat) :
    toScalars (u :: u2 :: rest) =
      (0x10000 + (u - 0xD800) * 0x400 + (u2 - 0xDC00)) :: toScalars rest := by
  rw [toScalars, if_pos h]

theorem toScalars_nopair {u u2 : Nat}
    (h : ¬(isHighSurrogate u && isLowSurrogate u2) = true) (rest : List Nat) :
    toScalars (u :: u2 :: rest) =
      (if isSurrogate u then 0xFFFD else u) :: toScalars (u2 :: rest) := by
  rw [toScalars, if_neg h]

theorem mem_toScalars_valid : ∀ (p : List Nat), (∀ u ∈ p, u < 65536) →
    ∀ c ∈ toScalars p, validScalar c = true
  | [], _ => by simp [toScalars]
  | [u], h => by
    have hu : u < 65536 := h u (by simp)
    simp only [toScalars, List.mem_cons, List.not_mem_nil, or_false]
    rintro c rfl
    rw [validScalar_iff]
    by_cases hs : isSurrogate u = true
    · rw [if_pos hs]
      omega
    · rw [if_neg hs]
      rw [Bool.not_eq_true, isSurrogate_false_iff] at hs
      omega
  | u :: u2 :: rest, h => by
    have hu : u < 65536 := h u (by simp)
    have hu2 : u2 < 65536 := h u2 (by simp)
    by_cases hp : (isHighSurrogate u && isLowSurrogate u2) = true
    · rw [toScalars_pair hp]
      have hp' := hp
      rw [Bool.and_eq_true, isHighSurrogate_iff, isLowSurrogate_iff] at hp'
      intro c hc
      rcases List.mem_cons.mp hc with hceq | hc2
      · rw [hceq, validScalar_iff]
        omega
      · exact mem_toScalars_valid rest (fun x hx => h x (by simp [hx])) c hc2
    · rw [toScalars_nopair hp]
      intro c hc
      rcases List.mem_cons.mp hc with hceq | hc2
      · rw [hceq, validScalar_iff]
        by_cases hs : isSurrogate u = true
        · rw [if_pos hs]
          omega
        · rw [if_neg hs]
          rw [Bool.not_eq_true, isSurrogate_false_iff] at hs
          omega
      · exact mem_toScalars_valid (u2 :: rest) (fun x hx => h x (by simp [hx])) c hc2

theorem toCodeUnits_toScalars : ∀ (p : List Nat), wellFormed p = true →
    toCodeUnits (toScalars p) = p
  | [], _ => rfl
  | [u], h => by
    simp only [wellFormed, Bool.and_eq_true, decide_eq_true_eq,
      Bool.not_eq_true'] at h
    obtain ⟨hu, hs⟩ := h
    rw [toScalars, if_neg (by simp [hs]), toCodeUnits_cons_small (by omega)]
    rfl
  | u :: u2 :: rest, h => by
    rw [wellFormed] at h
    by_cases hp : (isHighSurrogate u && isLowSurrogate u2) = true
    · rw [if_pos hp] at h
      have hrec := toCodeUnits_toScalars rest h
      have hp' := hp
      rw [Bool.and_eq_true, isHighSurrogate_iff, isLowSurrogate_iff] at hp'
      rw [toScalars_pair hp, toCodeUnits_cons_big (by omega)]
      refine congrArg₂ _ (by omega) (congrArg₂ _ (by omega) hrec)
    · rw [if_neg hp] at h
      simp only [Bool.and_eq_true, decide_eq_true_eq, Bool.not_eq_true'] at h
      obtain ⟨⟨hu, hs⟩, hrest⟩ := h
      have hrec := toCodeUnits_toScalars (u2 :: rest) hrest
      rw [toScalars_nopair hp, if_neg (by simp [hs]),
        toCodeUnits_cons_small (by omega)]
      exact congrArg _ hrec

theorem toCodeUnits_toScalars_ne : ∀ (p : List Nat), (∀ u ∈ p, u < 65536) →
    wellFormed p = false → toCodeUnits (toScalars p) ≠ p
  | [], _, h => by simp [wellFormed] at h
  | [u], hb, h => by
    have hu : u < 65536 := hb u (by simp)
    simp only [wellFormed, Bool.and_eq_false_iff, decide_eq_false_iff_not,
      Nat.not_lt, Bool.not_eq_false'] at h
    have hs : isSurrogate u = true := by
      rcases h with h | h
      · omega
      · exact h
    rw [toScalars, if_pos hs, toCodeUnits_cons_small (by omega)]
    rw [isSurrogate_iff] at hs
    intro hcontra
    have : (0xFFFD : Nat) = u := List.head_eq_of_cons_eq hcontra
    omega
  | u :: u2 :: rest, hb, h => by
    have hu : u < 65536 := hb u (by simp)
    rw [wellFormed] at h
    by_cases hp : (isHighSurrogate u && isLowSurrogate u2) = true
    · rw [if_pos hp] at h
      have hrec := toCodeUnits_toScalars_ne rest
        (fun x hx => hb x (by simp [hx])) h
      have hp' := hp
      rw [Bool.and_eq_true, isHighSurrogate_iff, isLowSurrogate_iff] at hp'
      rw [toScalars_pair hp, toCodeUnits_cons_big (by omega)]
      intro hcontra
      exact hrec (List.tail_eq_of_cons_eq (List.tail_eq_of_cons_eq hcontra))
    · rw [if_neg hp] at h
      simp only [Bool.and_eq_false_iff, decide_eq_false_iff_not, Nat.not_lt,
        Bool.not_eq_false'] at h
      rw [toScalars_nopair hp]
      rcases h with (h | hs) | hrest
      · omega
      · rw [if_pos hs, toCodeUnits_cons_small (by omega)]
        rw [isSurrogate_iff] at hs
        intro hcontra
        have : (0xFFFD : Nat) = u := List.head_eq_of_cons_eq hcontra
        omega
      · have hrec := toCodeUnits_toScalars_ne (u2 :: rest)
          (fun x hx => hb x (by simp [hx])) hrest
        by_cases hs : isSurrogate u = true
        · rw [if_pos hs, toCodeUnits_cons_small (by omega)]
          rw [isSurrogate_iff] at hs
          intro hcontra
          have h1 : (0xFFFD : Nat) = u := List.head_eq_of_cons_eq hcontra
          omega
        · rw [if_neg hs, toCodeUnits_cons_small (by omega)]
          intro hcontra
          exact hrec (List.tail_eq_of_cons_eq hcontra)

/-! ## Key-import lemmas -/

theorem toUint8_lt (v : Option Int) : toUint8 v < 256 := by
  rcases v with - | i
  · simp [toUint8]
  · simp only [toUint8]
    have h1 : 0 ≤ i % 256 := Int.emod_nonneg i (by omega)
    have h2 : i % 256 < 256 := Int.emod_lt_of_pos i (by omega)
    omega

theorem isLowerHex_not_lineTerm {c : Nat} (h : isLowerHex c = true) :
    ¬isLineTerm c = true := by
  simp only [isLowerHex, Bool.or_eq_true, Bool.and_eq_true, decide_eq_true_eq] at h
  simp only [isLineTerm, Bool.or_eq_true, beq_iff_eq]
  omega

theorem hexPairs_length_hex : ∀ (s : List Nat), (∀ c ∈ s, isLowerHex c = true) →
    (hexPairs s).length = s.length / 2
  | [], _ => rfl
  | [_], _ => by simp [hexPairs]
  | a :: b :: r, h => by
    rw [hexPairs, if_neg (isLowerHex_not_lineTerm (h a (by simp))),
      if_neg (isLowerHex_not_lineTerm (h b (by simp)))]
    have ih := hexPairs_length_hex r (fun c hc => h c (by simp [hc]))
    simp only [List.length_cons, ih]
    omega

theorem zodValidKey_iff {s : List Nat} :
    zodValidKey s = true ↔ s.length = 64 ∧ ∀ c ∈ s, isLowerHex c = true := by
  simp [zodValidKey, List.all_eq_true]

theorem getEncryptionKey_ok {s : List Nat} (h : zodValidKey s = true) :
    ∃ k, getEncryptionKey s = .ok k ∧ k.length = 32 ∧ ∀ b ∈ k, b < 256 := by
  rw [zodValidKey_iff] at h
  obtain ⟨hlen, hhex⟩ := h
  have hp : (hexPairs s).length = 32 := by
    rw [hexPairs_length_hex s hhex, hlen]
  refine ⟨(hexPairs s).map fun p => toUint8 (parseIntPair p.1 p.2), ?_, ?_, ?_⟩
  · rw [getEncryptionKey]
    rw [if_neg (by intro hnil; rw [hnil] at hp; simp at hp)]
    rw [if_pos (by simp [hp])]
  · simp [hp]
  · intro b hb
    simp only [List.mem_map] at hb
    obtain ⟨pr, -, rfl⟩ := hb
    exact toUint8_lt _

theorem envValidate_ok {s : List Nat} (h : zodValidKey s = true) :
    envValidateEncryptionKey s = .ok () := by
  rw [zodValidKey_iff] at h
  obtain ⟨hlen, hhex⟩ := h
  have hall : s.all isLowerHex = true := List.all_eq_true.mpr hhex
  simp [envValidateEncryptionKey, hlen, hall]

theorem keyImport_valid {s : List Nat} (h : zodValidKey s = true) :
    ∃ k, keyImport s = .ok k ∧ k.length = 32 ∧ ∀ b ∈ k, b < 256 := by
  obtain ⟨k, hk, hlen, hb⟩ := getEncryptionKey_ok h
  refine ⟨k, ?_, hlen, hb⟩
  rw [keyImport, envValidate_ok h, hk]

theorem envValidate_badhex {s : List Nat} (hlen : s.length = 64)
    (hall : s.all isLowerHex = false) :
    envValidateEncryptionKey s =
      .error ["ENCRYPTION_KEY must be a valid hex string (generate with: openssl rand -hex 32)"] := by
  rw [envValidateEncryptionKey]
  simp only [hlen, hall, if_pos, and_false, if_false, List.nil_append]
  rw [if_neg (by simp), if_neg (by simp)]

theorem envValidate_badlen {s : List Nat} (hlen : ¬s.length = 64) :
    envValidateEncryptionKey s =
      .error ("ENCRYPTION_KEY must be exactly 64 hex characters (32 bytes)" ::
        (if s.length = 64 ∧ s.all isLowerHex = true then []
         else ["ENCRYPTION_KEY must be a valid hex string (generate with: openssl rand -hex 32)"])) := by
  rw [envValidateEncryptionKey]
  rw [if_neg hlen]
  rw [if_neg (by simp [hlen])]
  rw [if_neg (fun hc => hlen hc.1)]
  simp

theorem keyImport_invalid {s : List Nat} (h : zodValidKey s = false) :
    ∃ msgs, keyImport s = .error msgs ∧ msgs ≠ [] := by
  have h' : ¬(s.length = 64 ∧ ∀ c ∈ s, isLowerHex c = true) := by
    intro hc
    rw [(zodValidKey_iff).mpr hc] at h
    exact absurd h (by decide)
  by_cases hlen : s.length = 64
  · have hhex : ¬∀ c ∈ s, isLowerHex c = true := fun hc => h' ⟨hlen, hc⟩
    have hall : s.all isLowerHex = false := by
      cases hb : s.all isLowerHex
      · rfl
      · exact absurd (List.all_eq_true.mp hb) hhex
    refine ⟨["ENCRYPTION_KEY must be a valid hex string (generate with: openssl rand -hex 32)"], ?_, by simp⟩
    rw [keyImport, envValidate_badhex hlen hall]
  · refine ⟨"ENCRYPTION_KEY must be exactly 64 hex characters (32 bytes)" ::
      (if s.length = 64 ∧ s.all isLowerHex = true then []
       else ["ENCRYPTION_KEY must be a valid hex string (generate with: openssl rand -hex 32)"]), ?_, by simp⟩
    rw [keyImport, envValidate_badlen hlen]

/-! ## AEAD model lemmas -/

theorem getD_set_self {l : List Nat} {i : Nat} (hi : i < l.length) (v : Nat) :
    (l.set i v).getD i 0 = v := by
  rw [List.getD_eq_getElem _ _ (by simpa using hi)]
  simp

theorem set_xor_ne {l : List Nat} {i m : Nat} (hi : i < l.length) (hm : m ≠ 0) :
    l.set i (l.getD i 0 ^^^ m) ≠ l := by
  intro hEq
  have h1 := congrArg (fun l' => l'.getD i 0) hEq
  simp only at h1
  rw [getD_set_self hi] at h1
  exact xor_flip_ne hm h1

theorem colXor_lt : ∀ (l : List Nat) (j : Nat), (∀ x ∈ l, x < 256) →
    colXor l j < 256
  | [], j, _ => by
    have h0 : colXor [] j = 0 := by cases j <;> rfl
    rw [h0]
    omega
  | x :: xs, 0, h => by
    rw [colXor]
    exact xor_lt_256 (h x (by simp)) (colXor_lt xs 15 fun y hy => h y (by simp [hy]))
  | _ :: xs, j + 1, h => by
    rw [colXor]
    exact colXor_lt xs j fun y hy => h y (by simp [hy])

theorem colXor_set : ∀ (l : List Nat) (i m j : Nat), j < 16 →
    colXor (l.set i (l.getD i 0 ^^^ m)) j =
      if i % 16 = j ∧ i < l.length then colXor l j ^^^ m else colXor l j
  | [], i, m, j, _ => by
    have h0 : ∀ jj, colXor [] jj = 0 := fun jj => by cases jj <;> rfl
    simp [h0]
  | x :: xs, 0, m, 0, _ => by
    have hset : (x :: xs).set 0 ((x :: xs).getD 0 0 ^^^ m) = (x ^^^ m) :: xs := rfl
    rw [hset, if_pos (by simp), colXor, colXor]
    rw [Nat.xor_assoc, Nat.xor_assoc, Nat.xor_comm m]
  | x :: xs, 0, m, j + 1, _ => by
    have hset : (x :: xs).set 0 ((x :: xs).getD 0 0 ^^^ m) = (x ^^^ m) :: xs := rfl
    rw [hset, if_neg (by omega), colXor, colXor]
  | x :: xs, i + 1, m, 0, h => by
    have hset : (x :: xs).set (i + 1) ((x :: xs).getD (i + 1) 0 ^^^ m) =
        x :: xs.set i (xs.getD i 0 ^^^ m) := rfl
    rw [hset, colXor, colXor_set xs i m 15 (by omega)]
    by_cases hc : i % 16 = 15 ∧ i < xs.length
    · rw [if_pos hc, if_pos (by simp only [List.length_cons]; omega), colXor]
      rw [Nat.xor_assoc]
    · rw [if_neg hc, if_neg (by simp only [List.length_cons]; omega), colXor]
  | x :: xs, i + 1, m, j + 1, h => by
    have hset : (x :: xs).set (i + 1) ((x :: xs).getD (i + 1) 0 ^^^ m) =
        x :: xs.set i (xs.getD i 0 ^^^ m) := rfl
    rw [hset, colXor, colXor_set xs i m j (by omega)]
    by_cases hc : i % 16 = j ∧ i < xs.length
    · rw [if_pos hc, if_pos (by simp only [List.length_cons]; omega), colXor]
    · rw [if_neg hc, if_neg (by simp only [List.length_cons]; omega), colXor]

theorem gcmTag_length (key iv ct : List Nat) : (gcmTag key iv ct).length = 16 := by
  simp [gcmTag, TAG_BYTES, TAG_LENGTH]

theorem gcmTag_getD {j : Nat} (hj : j < 16) (key iv ct : List Nat) :
    (gcmTag key iv ct).getD j 0 = key.getD j 0 ^^^ iv.getD j 0 ^^^ colXor ct j := by
  rw [List.getD_eq_getElem _ _ (by simp only [gcmTag_length]; omega)]
  simp [gcmTag]

theorem mem_gcmTag_lt {key iv ct : List Nat} (hk : ∀ x ∈ key, x < 256)
    (hi : ∀ x ∈ iv, x < 256) (hc : ∀ x ∈ ct, x < 256) :
    ∀ x ∈ gcmTag key iv ct, x < 256 := by
  intro x hx
  simp only [gcmTag, List.mem_map, List.mem_range] at hx
  obtain ⟨j, -, rfl⟩ := hx
  exact xor_lt_256 (xor_lt_256 (getD_lt_of_forall hk j) (getD_lt_of_forall hi j))
    (colXor_lt ct j hc)

theorem gcmTag_ne_iv {key iv ct : List Nat} {i m : Nat} (hi : i < 12)
    (hlen : iv.length = 12) (hm : m ≠ 0) :
    gcmTag key (iv.set i (iv.getD i 0 ^^^ m)) ct ≠ gcmTag key iv ct := by
  intro hEq
  have h1 := congrArg (fun l => l.getD i 0) hEq
  simp only at h1
  rw [gcmTag_getD (by omega), gcmTag_getD (by omega)] at h1
  rw [getD_set_self (by omega)] at h1
  have h2 := Nat.xor_left_inj.mp h1
  have h3 := Nat.xor_right_inj.mp h2
  exact hm (Nat.xor_right_inj.mp (h3.trans (Nat.xor_zero _).symm))

theorem gcmTag_ne_ct {key iv ct : List Nat} {i m : Nat} (hi : i < ct.length)
    (hm : m ≠ 0) :
    gcmTag key iv (ct.set i (ct.getD i 0 ^^^ m)) ≠ gcmTag key iv ct := by
  intro hEq
  have h1 := congrArg (fun l => l.getD (i % 16) 0) hEq
  simp only at h1
  rw [gcmTag_getD (Nat.mod_lt _ (by omega)), gcmTag_getD (Nat.mod_lt _ (by omega))] at h1
  rw [colXor_set ct i m (i % 16) (Nat.mod_lt _ (by omega)), if_pos ⟨rfl, hi⟩] at h1
  have h2 := Nat.xor_right_inj.mp h1
  exact hm (Nat.xor_right_inj.mp (h2.trans (Nat.xor_zero _).symm))

/-! ## Codec lemmas -/

theorem xorBytes_keystream_length (key iv pt : List Nat) :
    (xorBytes pt (keystream key iv pt.length)).length = pt.length := by
  rw [xorBytes_length, keystream_length]
  omega

theorem subtleEncrypt_length (key iv pt : List Nat) :
    (subtleEncrypt key iv pt).length = pt.length + 16 := by
  rw [subtleEncrypt]
  simp only [List.length_append, gcmTag_length, xorBytes_keystream_length]

theorem mem_subtleEncrypt_lt {key iv pt : List Nat} (hk : ∀ x ∈ key, x < 256)
    (hi : ∀ x ∈ iv, x < 256) (hp : ∀ x ∈ pt, x < 256) :
    ∀ x ∈ subtleEncrypt key iv pt, x < 256 := by
  have hct : ∀ x ∈ xorBytes pt (keystream key iv pt.length), x < 256 :=
    mem_xorBytes_lt hp (mem_keystream_lt key iv pt.length)
  intro x hx
  rw [subtleEncrypt] at hx
  rcases List.mem_append.mp hx with hx | hx
  · exact hct x hx
  · exact mem_gcmTag_lt hk hi hct x hx

theorem subtleDecrypt_split {key iv ct tg : List Nat} (hlen : tg.length = 16) :
    subtleDecrypt key iv (ct ++ tg) =
      if tg = gcmTag key iv ct
      then some (xorBytes ct (keystream key iv ct.length)) else none := by
  have hL : (ct ++ tg).length = ct.length + 16 := by simp [hlen]
  have hT : TAG_BYTES = 16 := rfl
  have htake : (ct ++ tg).take ((ct ++ tg).length - TAG_BYTES) = ct := by
    rw [hL, hT]
    exact List.take_left' (by omega)
  have hdrop : (ct ++ tg).drop ((ct ++ tg).length - TAG_BYTES) = tg := by
    rw [hL, hT]
    exact List.drop_left' (by omega)
  rw [subtleDecrypt]
  simp only [htake, hdrop]
  rw [if_neg (by rw [hL, hT]; omega)]

theorem subtleDecrypt_encrypt (key iv pt : List Nat) :
    subtleDecrypt key iv (subtleEncrypt key iv pt) = some pt := by
  rw [subtleEncrypt]
  rw [subtleDecrypt_split (gcmTag_length key iv _)]
  rw [if_pos rfl]
  rw [xorBytes_keystream_length]
  rw [xorBytes_cancel pt _ (by rw [keystream_length])]

theorem subtleDecrypt_short {key iv data : List Nat} (h : data.length < 16) :
    subtleDecrypt key iv data = none := by
  rw [subtleDecrypt]
  rw [if_pos (by simpa [TAG_BYTES, TAG_LENGTH] using h)]

theorem decrypt_encrypt_general {keyHex iv p : List Nat}
    (hk : zodValidKey keyHex = true) (hiv : iv.length = 12)
    (hivb : ∀ x ∈ iv, x < 256) (hp : ∀ u ∈ p, u < 65536) :
    ∃ env, encrypt keyHex iv p = .ok env ∧
      decrypt keyHex env = .ok (toCodeUnits (toScalars p)) ∧
      (b64decode env).length = 12 + (utf8Encode (toScalars p)).length + 16 := by
  obtain ⟨key, hkey, hklen, hkb⟩ := getEncryptionKey_ok hk
  have hscal : ∀ c ∈ toScalars p, validScalar c = true := mem_toScalars_valid p hp
  have hpB : ∀ x ∈ utf8Encode (toScalars p), x < 256 :=
    mem_utf8Encode_lt _ fun c hc => ((validScalar_iff).mp (hscal c hc)).1
  have hLb : ∀ x ∈ iv ++ subtleEncrypt key iv (utf8Encode (toScalars p)), x < 256 := by
    intro x hx
    rcases List.mem_append.mp hx with hx | hx
    · exact hivb x hx
    · exact mem_subtleEncrypt_lt hkb hivb hpB x hx
  refine ⟨b64encode (iv ++ subtleEncrypt key iv (utf8Encode (toScalars p))), ?_, ?_, ?_⟩
  · rw [encrypt, hkey]
  · rw [decrypt, hkey]
    dsimp only
    rw [b64_roundtrip _ hLb, IV_LENGTH, List.take_left' hiv,
      List.drop_left' hiv, subtleDecrypt_encrypt]
    dsimp only
    rw [utf8_roundtrip (toScalars p) hscal]
  · rw [b64_roundtrip _ hLb]
    simp only [List.length_append, subtleEncrypt_length, hiv]
    omega

theorem decrypt_of_subtle_none {keyHex key : List Nat} (env : List Nat)
    (hkey : getEncryptionKey keyHex = .ok key)
    (h : subtleDecrypt key ((b64decode env).take 12) ((b64decode env).drop 12) = none) :
    decrypt keyHex env = .error "OperationError" := by
  rw [decrypt, hkey]
  dsimp only
  rw [IV_LENGTH, h]

theorem decrypt_flip_error {keyHex iv p : List Nat}
    (hk : zodValidKey keyHex = true) (hiv : iv.length = 12)
    (hivb : ∀ x ∈ iv, x < 256) (hp : ∀ u ∈ p, u < 65536) {env : List Nat}
    (henv : encrypt keyHex iv p = .ok env) :
    ∀ i b, i < (b64decode env).length → b < 8 →
      decrypt keyHex (b64encode (flipBit (b64decode env) i b)) =
        .error "OperationError" := by
  obtain ⟨key, hkey, hklen, hkb⟩ := getEncryptionKey_ok hk
  have hscal : ∀ c ∈ toScalars p, validScalar c = true := mem_toScalars_valid p hp
  have hpB : ∀ x ∈ utf8Encode (toScalars p), x < 256 :=
    mem_utf8Encode_lt _ fun c hc => ((validScalar_iff).mp (hscal c hc)).1
  have hct : ∀ x ∈ xorBytes (utf8Encode (toScalars p))
      (keystream key iv (utf8Encode (toScalars p)).length), x < 256 :=
    mem_xorBytes_lt hpB (mem_keystream_lt key iv _)
  rw [encrypt, hkey] at henv
  dsimp only at henv
  have henv' := Except.ok.inj henv
  subst henv'
  have hLb : ∀ x ∈ iv ++ subtleEncrypt key iv (utf8Encode (toScalars p)), x < 256 := by
    intro x hx
    rcases List.mem_append.mp hx with hx | hx
    · exact hivb x hx
    · exact mem_subtleEncrypt_lt hkb hivb hpB x hx
  have hdec : b64decode (b64encode (iv ++ subtleEncrypt key iv
      (utf8Encode (toScalars p)))) = iv ++ subtleEncrypt key iv
      (utf8Encode (toScalars p)) := b64_roundtrip _ hLb
  intro i b hi hb
  rw [hdec] at hi
  rw [hdec, flipBit]
  have hm0 : (2 : Nat) ^ b ≠ 0 := (pow_pos (by omega : (0 : Nat) < 2) b).ne'
  have hm256 : (2 : Nat) ^ b < 256 := by
    calc (2 : Nat) ^ b < 2 ^ 8 := Nat.pow_lt_pow_right (by omega) hb
    _ = 256 := by norm_num
  have hsetb : ∀ x ∈ (iv ++ subtleEncrypt key iv (utf8Encode (toScalars p))).set i
      ((iv ++ subtleEncrypt key iv (utf8Encode (toScalars p))).getD i 0 ^^^ 2 ^ b),
      x < 256 := by
    intro x hx
    rcases List.mem_or_eq_of_mem_set hx with hx | rfl
    · exact hLb x hx
    · exact xor_lt_256 (getD_lt_of_forall hLb i) hm256
  apply decrypt_of_subtle_none _ hkey
  rw [b64_roundtrip _ hsetb]
  rw [subtleEncrypt] at hi hsetb ⊢
  have hclen : (xorBytes (utf8Encode (toScalars p))
      (keystream key iv (utf8Encode (toScalars p)).length)).length =
      (utf8Encode (toScalars p)).length := xorBytes_keystream_length key iv _
  have htlen : (gcmTag key iv (xorBytes (utf8Encode (toScalars p))
      (keystream key iv (utf8Encode (toScalars p)).length))).length = 16 :=
    gcmTag_length key iv _
  simp only [List.length_append, hiv, hclen, htlen] at hi
  by_cases h1 : i < 12
  · -- flip inside the nonce
    rw [List.getD_append _ _ _ _ (by omega), List.set_append_left _ _ (by omega)]
    rw [List.take_left' (by simp [hiv]), List.drop_left' (by simp [hiv])]
    rw [subtleDecrypt_split htlen]
    rw [if_neg ?_]
    intro heq
    exact gcmTag_ne_iv h1 hiv hm0 heq.symm
  · rw [List.getD_append_right _ _ _ _ (by omega),
      List.set_append_right _ _ (by omega)]
    rw [List.take_left' hiv, List.drop_left' hiv]
    by_cases h2 : i - iv.length < (xorBytes (utf8Encode (toScalars p))
        (keystream key iv (utf8Encode (toScalars p)).length)).length
    · -- flip inside the ciphertext
      rw [List.getD_append _ _ _ _ (by omega), List.set_append_left _ _ (by omega)]
      rw [subtleDecrypt_split htlen]
      rw [if_neg ?_]
      intro heq
      exact gcmTag_ne_ct h2 hm0 heq.symm
    · -- flip inside the tag
      rw [List.getD_append_right _ _ _ _ (by omega),
        List.set_append_right _ _ (by omega)]
      rw [subtleDecrypt_split (by simp [htlen])]
      rw [if_neg ?_]
      intro heq
      exact set_xor_ne (by omega) hm0 heq

/-! ## Remaining helper lemmas -/

theorem wellFormed_bounds : ∀ (p : List Nat), wellFormed p = true →
    ∀ u ∈ p, u < 65536
  | [], _ => by simp
  | [u], h => by
    simp only [wellFormed, Bool.and_eq_true, decide_eq_true_eq,
      Bool.not_eq_true'] at h
    simpa using h.1
  | u :: u2 :: rest, h => by
    rw [wellFormed] at h
    by_cases hp : (isHighSurrogate u && isLowSurrogate u2) = true
    · rw [if_pos hp] at h
      have hp' := hp
      rw [Bool.and_eq_true, isHighSurrogate_iff, isLowSurrogate_iff] at hp'
      intro x hx
      rcases List.mem_cons.mp hx with rfl | hx
      · omega
      · rcases List.mem_cons.mp hx with rfl | hx
        · omega
        · exact wellFormed_bounds rest h x hx
    · rw [if_neg hp] at h
      simp only [Bool.and_eq_true, decide_eq_true_eq, Bool.not_eq_true'] at h
      obtain ⟨⟨hu, -⟩, hrest⟩ := h
      intro x hx
      rcases List.mem_cons.mp hx with rfl | hx
      · exact hu
      · exact wellFormed_bounds (u2 :: rest) hrest x hx

theorem decrypt_short {keyHex s : List Nat} (hk : zodValidKey keyHex = true)
    (h : (b64decode s).length < 28) :
    decrypt keyHex s = .error "OperationError" := by
  obtain ⟨key, hkey, -, -⟩ := getEncryptionKey_ok hk
  apply decrypt_of_subtle_none _ hkey
  apply subtleDecrypt_short
  rw [List.length_drop]
  omega

theorem b64decode_append_bang (s : List Nat) :
    b64decode (s ++ [33]) = b64decode s := by
  rw [b64decode, b64decode, b64vals_append]
  have h33 : b64vals [33] = [] := rfl
  rw [h33, List.append_nil]

theorem decrypt_congr {keyHex s1 s2 : List Nat}
    (h : b64decode s1 = b64decode s2) : decrypt keyHex s1 = decrypt keyHex s2 := by
  rw [decrypt, decrypt, h]

/-! ## Claim theorems -/

/-- C1: for every well-formed Unicode string `p` (no unpaired surrogates;
including the empty string and strings with multi-byte codepoints),
decrypting the result of encrypting `p` under the same well-formed
64-hex-character key returns exactly `p`. -/
theorem C1_roundtrip (keyHex iv p : List Nat) (hk : zodValidKey keyHex = true)
    (hiv : iv.length = 12) (hivb : ∀ x ∈ iv, x < 256)
    (hp : wellFormed p = true) :
    ∃ env, encrypt keyHex iv p = .ok env ∧ decrypt keyHex env = .ok p := by
  obtain ⟨env, he, hd, -⟩ :=
    decrypt_encrypt_general hk hiv hivb (wellFormed_bounds p hp)
  exact ⟨env, he, by rw [hd, toCodeUnits_toScalars p hp]⟩

/-- Witness for C1 at the concrete key `"00"*32`, a concrete nonce, and the
two-codepoint plaintext `"hé"` (with a multi-byte codepoint). -/
theorem C1_roundtrip_witness :
    ∃ env, encrypt key0 iv0 [104, 233] = .ok env ∧
      decrypt key0 env = .ok [104, 233] :=
  C1_roundtrip key0 iv0 [104, 233] (by decide) (by decide) (by decide) (by decide)

/-- C2: for every envelope produced by `encrypt`, flipping any single bit of
its base64-decoded bytes and re-encoding makes `decrypt` fail with the
decryption error, and `safeDecrypt` return `none`. -/
theorem C2_tamper_detection (keyHex iv p : List Nat)
    (hk : zodValidKey keyHex = true) (hiv : iv.length = 12)
    (hivb : ∀ x ∈ iv, x < 256) (hp : ∀ u ∈ p, u < 65536) (env : List Nat)
    (henv : encrypt keyHex iv p = .ok env) (i b : Nat)
    (hi : i < (b64decode env).length) (hb : b < 8) :
    decrypt keyHex (b64encode (flipBit (b64decode env) i b)) =
      .error "OperationError" ∧
    safeDecrypt keyHex (b64encode (flipBit (b64decode env) i b)) = none := by
  have h := decrypt_flip_error hk hiv hivb hp henv i b hi hb
  exact ⟨h, by rw [safeDecrypt, h]⟩

/-- Witness for C2: flipping bit 0 of byte 0 of the concrete envelope `envA`
is rejected. -/
theorem C2_tamper_detection_witness :
    decrypt key0 (b64encode (flipBit (b64decode envA) 0 0)) =
      .error "OperationError" ∧
    safeDecrypt key0 (b64encode (flipBit (b64decode envA) 0 0)) = none :=
  C2_tamper_detection key0 iv0 [65] (by decide) (by decide) (by decide)
    (by decide) envA (by decide) 0 0 (by decide) (by decide)

/-- C3 counterexample: for the 64-character non-hex key `"g"*64`, the
key-import pipeline rejects it with the Zod message, not with
"Invalid encryption key format"; and `getEncryptionKey` alone silently
parses it to an all-zero 32-byte key handle (NaN coerced to 0) instead of
failing. -/
theorem C3_counterexample :
    keyImport (List.replicate 64 103) =
      .error ["ENCRYPTION_KEY must be a valid hex string (generate with: openssl rand -hex 32)"] ∧
    "Invalid encryption key format" ∉
      ["ENCRYPTION_KEY must be a valid hex string (generate with: openssl rand -hex 32)"] ∧
    getEncryptionKey (List.replicate 64 103) = .ok (List.replicate 32 0) := by
  refine ⟨by decide, by decide, by decide⟩

/-- C3 (amended): for every key string whose length is not 64 or that
contains a character outside lowercase `[0-9a-f]`, the key-import path
fails at the configuration-validation layer with that layer's nonempty
issue list, and no key handle is produced. -/
theorem C3_key_validation (s : List Nat) (h : zodValidKey s = false) :
    ∃ msgs, keyImport s = .error msgs ∧ msgs ≠ [] :=
  keyImport_invalid h

/-- Witness for C3 at the empty key string. -/
theorem C3_key_validation_witness :
    zodValidKey [] = false ∧ ∃ msgs, keyImport [] = .error msgs ∧ msgs ≠ [] :=
  ⟨by decide, C3_key_validation [] (by decide)⟩

/-- C4: the base64-decoded byte length of every envelope equals
12 (nonce) + UTF-8 byte length of the plaintext + 16 (tag); in particular
the decoded envelope of `"hello world"` is exactly 39 bytes, that of `""`
exactly 28 bytes, and both round-trip. -/
theorem C4_envelope_length (keyHex iv p : List Nat)
    (hk : zodValidKey keyHex = true) (hiv : iv.length = 12)
    (hivb : ∀ x ∈ iv, x < 256) (hp : ∀ u ∈ p, u < 65536) :
    (∀ env, encrypt keyHex iv p = .ok env →
      (b64decode env).length = 12 + (utf8Encode (toScalars p)).length + 16) ∧
    (encrypt key0 iv0 helloWorld = .ok envHello ∧
      (b64decode envHello).length = 12 + 11 + 16 ∧
      decrypt key0 envHello = .ok helloWorld) ∧
    (encrypt key0 iv0 [] = .ok envEmpty ∧
      (b64decode envEmpty).length = 12 + 0 + 16 ∧
      decrypt key0 envEmpty = .ok []) := by
  refine ⟨?_, by decide, by decide⟩
  obtain ⟨env', he, -, hlen⟩ := decrypt_encrypt_general hk hiv hivb hp
  intro env henv
  rw [he] at henv
  rw [← Except.ok.inj henv]
  exact hlen

/-- Witness for C4: the two concrete scenarios, obtained by applying the
theorem at the concrete key and nonce. -/
theorem C4_envelope_length_witness :
    (encrypt key0 iv0 helloWorld = .ok envHello ∧
      (b64decode envHello).length = 12 + 11 + 16 ∧
      decrypt key0 envHello = .ok helloWorld) ∧
    (encrypt key0 iv0 [] = .ok envEmpty ∧
      (b64decode envEmpty).length = 12 + 0 + 16 ∧
      decrypt key0 envEmpty = .ok []) :=
  (C4_envelope_length key0 iv0 [] (by decide) (by decide) (by decide)
    (by decide)).2

/-- C5 counterexample: appending `'!'` to a valid envelope yields a string
that is not valid base64, yet `decrypt` succeeds on it (Node's forgiving
base64 decoding ignores the non-alphabet character), so "decrypt fails on
every non-base64 string" is false. -/
theorem C5_counterexample :
    b64StrictChars (envA ++ [33]) = false ∧
    decrypt key0 (envA ++ [33]) = .ok [65] ∧
    safeDecrypt key0 (envA ++ [33]) = some [65] := by
  refine ⟨by decide, by decide, by decide⟩

/-- C5 (amended): every input whose forgiving base64 decode yields fewer
than 28 bytes — which includes every valid-base64 string decoding to fewer
than 12 bytes and the empty string — makes `decrypt` fail with the single
decryption error, and `safeDecrypt` return `none`; a non-base64 string is
not necessarily rejected, since non-alphabet characters are ignored. -/
theorem C5_malformed_rejection (keyHex s : List Nat)
    (hk : zodValidKey keyHex = true) (h : (b64decode s).length < 28) :
    decrypt keyHex s = .error "OperationError" ∧
    safeDecrypt keyHex s = none := by
  have hd := decrypt_short hk h
  exact ⟨hd, by rw [safeDecrypt, hd]⟩

/-- Witness for C5 at the empty input string. -/
theorem C5_malformed_rejection_witness :
    (b64decode []).length < 28 ∧
    decrypt key0 [] = .error "OperationError" ∧ safeDecrypt key0 [] = none :=
  ⟨by decide, C5_malformed_rejection key0 [] (by decide) (by decide)⟩

/-- C6: for every key and input string, `safeDecrypt` never throws — when
`decrypt` succeeds it returns the same plaintext, and on any failure it
returns `none`. -/
theorem C6_safeDecrypt_never_throws (keyHex s : List Nat) :
    (∃ p, decrypt keyHex s = .ok p ∧ safeDecrypt keyHex s = some p) ∨
    (∃ e, decrypt keyHex s = .error e ∧ safeDecrypt keyHex s = none) := by
  cases hd : decrypt keyHex s with
  | error e => exact .inr ⟨e, rfl, by rw [safeDecrypt, hd]⟩
  | ok p => exact .inl ⟨p, rfl, by rw [safeDecrypt, hd]⟩

/-- C8: encryption is not deterministic across nonce draws — for a fixed
plaintext and fixed key, two calls to `encrypt` that draw distinct 12-byte
nonces from the random source both succeed and produce different envelope
strings, so equality of output across calls must not be assumed. -/
theorem C8_nondeterminism (keyHex iv1 iv2 p : List Nat)
    (hk : zodValidKey keyHex = true) (h1 : iv1.length = 12)
    (h2 : iv2.length = 12) (hb1 : ∀ x ∈ iv1, x < 256)
    (hb2 : ∀ x ∈ iv2, x < 256) (hp : ∀ u ∈ p, u < 65536) (hne : iv1 ≠ iv2) :
    ∃ env1 env2, encrypt keyHex iv1 p = .ok env1 ∧
      encrypt keyHex iv2 p = .ok env2 ∧ env1 ≠ env2 := by
  obtain ⟨key, hkey, -, hkb⟩ := getEncryptionKey_ok hk
  have hscal := mem_toScalars_valid p hp
  have hpB : ∀ x ∈ utf8Encode (toScalars p), x < 256 :=
    mem_utf8Encode_lt _ fun c hc => ((validScalar_iff).mp (hscal c hc)).1
  have hL1 : ∀ x ∈ iv1 ++ subtleEncrypt key iv1 (utf8Encode (toScalars p)), x < 256 := by
    intro x hx
    rcases List.mem_append.mp hx with hx | hx
    · exact hb1 x hx
    · exact mem_subtleEncrypt_lt hkb hb1 hpB x hx
  have hL2 : ∀ x ∈ iv2 ++ subtleEncrypt key iv2 (utf8Encode (toScalars p)), x < 256 := by
    intro x hx
    rcases List.mem_append.mp hx with hx | hx
    · exact hb2 x hx
    · exact mem_subtleEncrypt_lt hkb hb2 hpB x hx
  refine ⟨b64encode (iv1 ++ subtleEncrypt key iv1 (utf8Encode (toScalars p))),
    b64encode (iv2 ++ subtleEncrypt key iv2 (utf8Encode (toScalars p))),
    by rw [encrypt, hkey], by rw [encrypt, hkey], ?_⟩
  intro hEq
  have hlists := b64encode_inj hL1 hL2 hEq
  exact hne (List.append_inj hlists (h1.trans h2.symm)).1

/-- Witness for C8: two distinct concrete nonces give two successful
encryptions with distinct envelopes. -/
theorem C8_nondeterminism_witness :
    ∃ env1 env2, encrypt key0 iv0 [65] = .ok env1 ∧
      encrypt key0 (List.replicate 12 1) [65] = .ok env2 ∧ env1 ≠ env2 :=
  C8_nondeterminism key0 iv0 (List.replicate 12 1) [65] (by decide) (by decide)
    (by decide) (by decide) (by decide) (by decide) (by decide)

/-- C9: Node's base64 decoding ignores characters outside the base64
alphabet, so appending `'!'` to a valid envelope yields a non-base64 string
on which `decrypt` still succeeds and returns the same plaintext as on the
unmodified envelope. -/
theorem C9_base64_forgiving (keyHex iv p : List Nat)
    (hk : zodValidKey keyHex = true) (hiv : iv.length = 12)
    (hivb : ∀ x ∈ iv, x < 256) (hp : wellFormed p = true) (env : List Nat)
    (henv : encrypt keyHex iv p = .ok env) :
    b64StrictChars (env ++ [33]) = false ∧
    decrypt keyHex (env ++ [33]) = decrypt keyHex env ∧
    decrypt keyHex (env ++ [33]) = .ok p := by
  obtain ⟨env', he, hd, -⟩ :=
    decrypt_encrypt_general hk hiv hivb (wellFormed_bounds p hp)
  rw [he] at henv
  obtain rfl := Except.ok.inj henv
  refine ⟨?_, decrypt_congr (b64decode_append_bang env'), ?_⟩
  · rw [b64StrictChars, List.all_append]
    have h33 : [(33 : Nat)].all (fun c => (b64Index c).isSome || c == 61) = false := rfl
    rw [h33, Bool.and_false]
  · rw [decrypt_congr (b64decode_append_bang env'), hd,
      toCodeUnits_toScalars p hp]

/-- Witness for C9 at the concrete envelope `envA`. -/
theorem C9_base64_forgiving_witness :
    b64StrictChars (envA ++ [33]) = false ∧
    decrypt key0 (envA ++ [33]) = decrypt key0 envA ∧
    decrypt key0 (envA ++ [33]) = .ok [65] :=
  C9_base64_forgiving key0 iv0 [65] (by decide) (by decide) (by decide)
    (by decide) envA (by decide)

/-- C10: for every input string containing an unpaired UTF-16 surrogate
(so `wellFormed p = false` while all units are code units), the round trip
returns `p` with each unpaired surrogate replaced by U+FFFD — which is the
USV conversion `toCodeUnits (toScalars p)` — and that result differs from
`p` itself. -/
theorem C10_lone_surrogate_replacement (keyHex iv p : List Nat)
    (hk : zodValidKey keyHex = true) (hiv : iv.length = 12)
    (hivb : ∀ x ∈ iv, x < 256) (hp : ∀ u ∈ p, u < 65536)
    (hw : wellFormed p = false) :
    ∃ env, encrypt keyHex iv p = .ok env ∧
      decrypt keyHex env = .ok (toCodeUnits (toScalars p)) ∧
      toCodeUnits (toScalars p) ≠ p := by
  obtain ⟨env, he, hd, -⟩ := decrypt_encrypt_general hk hiv hivb hp
  exact ⟨env, he, hd, toCodeUnits_toScalars_ne p hp hw⟩

/-- Witness for C10 at a plaintext with a lone high surrogate. -/
theorem C10_lone_surrogate_replacement_witness :
    ∃ env, encrypt key0 iv0 [104, 55348, 105] = .ok env ∧
      decrypt key0 env = .ok (toCodeUnits (toScalars [104, 55348, 105])) ∧
      toCodeUnits (toScalars [104, 55348, 105]) ≠ [104, 55348, 105] :=
  C10_lone_surrogate_replacement key0 iv0 [104, 55348, 105] (by decide)
    (by decide) (by decide) (by decide) (by decide)
